import Mathlib

/-!
Shallow embedding of the AlmirSai/Scripts repository: a shared counter
incremented by a fixed number of worker threads, in two variants.

* `src/src/atomic/main.cpp` — the counter is a `std::atomic<int>`; each
  `counter++` is one indivisible fetch-and-add with no lock.  We model a run
  as an arbitrary interleaving of per-increment scheduler steps, one worker
  index per step (`astep`, `arun`).

* `src/atomic/main.cpp` — the counter is a plain `int` protected by a
  `std::mutex`; each worker constructs a `std::lock_guard` on entry to its
  lambda, so it acquires the lock once, runs its whole loop of `iterations`
  increments while holding it, and releases it when the lambda exits.  We
  model this as a labelled transition system with `acquire`/`inc`/`release`
  events and an explicit lock owner in the state (`lstep`, `lrun`).

* `src/src/atomic/test_features.cpp` — the feature probe: 5 threads, each
  performing 1000 atomic increments; it reuses the atomic system.

Machine integers: the C++ counter is a 32-bit signed `int`.  All counts here
are `Nat`; the overflow question is settled separately by bounding every
reachable counter value below `2 ^ 31` (claim C9), which justifies the
unbounded modelling everywhere else.
-/

namespace Scripts

/-! ### List helper lemmas -/

theorem getSet_self {α : Type} (l : List α) (i : Nat) (a b : α)
    (h : l[i]? = some a) : (l.set i b)[i]? = some b := by
  induction l generalizing i with
  | nil => simp at h
  | cons x xs ih =>
    cases i with
    | zero => simp
    | succ k =>
      simp only [List.set_cons_succ, List.getElem?_cons_succ] at h ⊢
      exact ih k h

theorem getSet_ne {α : Type} (l : List α) (i j : Nat) (b : α)
    (hne : i ≠ j) : (l.set i b)[j]? = l[j]? := by
  induction l generalizing i j with
  | nil => simp
  | cons x xs ih =>
    cases i with
    | zero =>
      cases j with
      | zero => exact absurd rfl hne
      | succ m => simp
    | succ k =>
      cases j with
      | zero => simp
      | succ m =>
        simp only [List.set_cons_succ, List.getElem?_cons_succ]
        exact ih k m (fun h => hne (by omega))

theorem set_cancel {α : Type} (l : List α) (i : Nat) (a : α)
    (h : l[i]? = some a) : l.set i a = l := by
  induction l generalizing i with
  | nil => simp
  | cons x xs ih =>
    cases i with
    | zero =>
      simp only [List.getElem?_cons_zero, Option.some.injEq] at h
      simp [h]
    | succ k =>
      simp only [List.getElem?_cons_succ] at h
      simp [ih k h]

theorem set_set {α : Type} (l : List α) (i : Nat) (a b : α) :
    (l.set i a).set i b = l.set i b := by
  induction l generalizing i with
  | nil => simp
  | cons x xs ih =>
    cases i with
    | zero => simp
    | succ k => simp [ih k]

theorem sum_set_nat (l : List Nat) (i a b : Nat)
    (h : l[i]? = some a) : (l.set i b).sum + a = l.sum + b := by
  induction l generalizing i with
  | nil => simp at h
  | cons x xs ih =>
    cases i with
    | zero =>
      simp only [List.getElem?_cons_zero, Option.some.injEq] at h
      simp [h]
      omega
    | succ k =>
      simp only [List.getElem?_cons_succ] at h
      have := ih k h
      simp only [List.set_cons_succ, List.sum_cons]
      omega

theorem get_append_len {α : Type} (zs : List α) (a : α) (t : List α) :
    (zs ++ a :: t)[zs.length]? = some a := by
  induction zs with
  | nil => simp
  | cons x xs ih => simpa using ih

theorem set_append_len {α : Type} (zs : List α) (a b : α) (t : List α) :
    (zs ++ a :: t).set zs.length b = zs ++ b :: t := by
  induction zs with
  | nil => simp
  | cons x xs ih => simp [ih]

theorem get_replicate {α : Type} (n i : Nat) (a : α) (h : i < n) :
    (List.replicate n a)[i]? = some a := by
  induction n generalizing i with
  | zero => omega
  | succ m ih =>
    cases i with
    | zero => simp [List.replicate_succ]
    | succ k =>
      simp only [List.replicate_succ, List.getElem?_cons_succ]
      exact ih k (by omega)

theorem sum_replicate_nat (n a : Nat) : (List.replicate n a).sum = n * a := by
  induction n with
  | zero => simp
  | succ m ih => simp [List.replicate_succ, ih, Nat.succ_mul]; omega

/-! ### The atomic program (`src/src/atomic/main.cpp`)

State: the shared `std::atomic<int> counter` and, per spawned worker, the
number of iterations of its `for` loop that remain. -/

structure AState where
  counter : Nat
  workers : List Nat
deriving DecidableEq

/-- One scheduler step of the atomic program: worker `i`, if its loop is not
finished, performs one `counter++` — a single indivisible fetch-and-add —
and its remaining iteration count drops by one.  No lock is involved. -/
def astep (s : AState) (i : Nat) : Option AState :=
  match s.workers[i]? with
  | some (r+1) => some ⟨s.counter + 1, s.workers.set i r⟩
  | _ => none

/-- Run a whole schedule (an arbitrary interleaving of the workers at
per-increment granularity), one worker index per step. -/
def arun (s : AState) : List Nat → Option AState
  | [] => some s
  | i :: tr => (astep s i).bind fun s1 => arun s1 tr

/-- Every worker has completed its loop (all joins succeed immediately). -/
def aDone (s : AState) : Bool := s.workers.all (fun r => r == 0)

/-- Initial state for a list of per-worker iteration counts. -/
def initW (w : List Nat) : AState := ⟨0, w⟩

/-- Initial state of the atomic `main`: `n` workers, `iters` iterations each,
counter initialized to 0. -/
def initA (n iters : Nat) : AState := initW (List.replicate n iters)

theorem astep_elim (s : AState) (i : Nat) (s2 : AState)
    (h : astep s i = some s2) :
    ∃ r, s.workers[i]? = some (r + 1) ∧
      s2 = ⟨s.counter + 1, s.workers.set i r⟩ := by
  unfold astep at h
  split at h
  · next r heq => exact ⟨r, heq, (Option.some.injEq _ _).mp h.symm ▸ rfl⟩
  · exact absurd h (by simp)

/-- Each atomic step conserves `counter + Σ remaining`. -/
theorem astep_total (s : AState) (i : Nat) (s2 : AState)
    (h : astep s i = some s2) :
    s2.counter + s2.workers.sum = s.counter + s.workers.sum := by
  obtain ⟨r, hget, hs2⟩ := astep_elim s i s2 h
  subst hs2
  have := sum_set_nat s.workers i (r + 1) r hget
  simp only
  omega

theorem arun_total (tr : List Nat) (s s2 : AState)
    (h : arun s tr = some s2) :
    s2.counter + s2.workers.sum = s.counter + s.workers.sum := by
  induction tr generalizing s with
  | nil => simp only [arun, Option.some.injEq] at h; rw [h]
  | cons i tr ih =>
    simp only [arun, Option.bind_eq_some] at h
    obtain ⟨s1, h1, h2⟩ := h
    rw [ih s1 h2, astep_total s i s1 h1]

theorem all_zero_sum (l : List Nat) (h : l.all (fun r => r == 0) = true) :
    l.sum = 0 := by
  induction l with
  | nil => rfl
  | cons x xs ih =>
    simp only [List.all_cons, Bool.and_eq_true, beq_iff_eq] at h
    simp [h.1, ih h.2]

theorem aDone_sum (s : AState) (h : aDone s = true) : s.workers.sum = 0 :=
  all_zero_sum s.workers h

/-- A complete run of the atomic system ends with `counter = Σ w`. -/
theorem arun_final_sum (w : List Nat) (tr : List Nat) (s : AState)
    (h : arun (initW w) tr = some s) (hdone : aDone s = true) :
    s.counter = w.sum := by
  have := arun_total tr (initW w) s h
  have hz := aDone_sum s hdone
  simp only [initW] at this
  omega

theorem arun_append (s : AState) (t1 t2 : List Nat) :
    arun s (t1 ++ t2) = (arun s t1).bind fun s1 => arun s1 t2 := by
  induction t1 generalizing s with
  | nil => simp [arun]
  | cons i tr ih =>
    simp only [List.cons_append, arun]
    cases astep s i with
    | none => simp
    | some s1 => simp [ih s1]

/-- The fully sequential schedule: worker `k` runs its whole loop, then
worker `k+1`, and so on. -/
def aseqFrom : Nat → List Nat → List Nat
  | _, [] => []
  | k, r :: rest => List.replicate r k ++ aseqFrom (k + 1) rest

/-- Running worker `i` for all of its `r` remaining iterations. -/
theorem arun_worker (c : Nat) (l : List Nat) (i r : Nat)
    (h : l[i]? = some r) :
    arun ⟨c, l⟩ (List.replicate r i) = some ⟨c + r, l.set i 0⟩ := by
  induction r generalizing c l with
  | zero => simp [arun, set_cancel l i 0 h]
  | succ m ih =>
    have hstep : astep ⟨c, l⟩ i = some ⟨c + 1, l.set i m⟩ := by
      unfold astep
      simp only [h]
    rw [List.replicate_succ]
    simp only [arun, hstep, Option.some_bind]
    rw [ih (c + 1) (l.set i m) (getSet_self l i (m + 1) m h)]
    rw [set_set]
    have harith : c + 1 + m = c + (m + 1) := by omega
    rw [harith]

theorem arun_aseqFrom (c : Nat) (zs rest : List Nat) :
    arun ⟨c, zs ++ rest⟩ (aseqFrom zs.length rest) =
      some ⟨c + rest.sum, zs ++ List.replicate rest.length 0⟩ := by
  induction rest generalizing c zs with
  | nil => simp [aseqFrom, arun]
  | cons r rest ih =>
    simp only [aseqFrom, arun_append]
    rw [arun_worker c (zs ++ r :: rest) zs.length r (get_append_len zs r rest)]
    simp only [Option.some_bind, set_append_len]
    have h0 : zs ++ 0 :: rest = (zs ++ [0]) ++ rest := by simp
    have hlen : zs.length + 1 = (zs ++ [0]).length := by simp
    rw [h0, hlen, ih (c + r) (zs ++ [0])]
    simp only [List.sum_cons, List.length_cons, List.replicate_succ,
      Option.some.injEq, AState.mk.injEq]
    exact ⟨by omega, by simp⟩

/-- A complete sequential run of the atomic system from `initW w`. -/
theorem arun_aseq (w : List Nat) :
    arun (initW w) (aseqFrom 0 w) =
      some ⟨w.sum, List.replicate w.length 0⟩ := by
  have := arun_aseqFrom 0 ([] : List Nat) w
  simpa [initW] using this

theorem aDone_zeros (c n : Nat) : aDone ⟨c, List.replicate n 0⟩ = true := by
  unfold aDone
  rw [List.all_eq_true]
  intro x hx
  have := List.eq_of_mem_replicate hx
  simp [this]

/-! ### The mutex program (`src/atomic/main.cpp`)

The lambda of each worker constructs a `std::lock_guard<std::mutex>` on entry, so
the worker acquires the single mutex `m` once, executes its whole
`for` loop of increments while holding it, and releases it when the lambda
returns.  The life of a worker is therefore
`notStarted r → (acquire) → inLoop r → (inc)* → inLoop 0 → (release) → done`,
and `inc` steps require ownership of the lock. -/

inductive Phase where
  | notStarted (r : Nat)
  | inLoop (r : Nat)
  | done
deriving DecidableEq

/-- Events of the mutex program, labelled with the index of the acting worker. -/
inductive LEv where
  | acquire (i : Nat)
  | inc (i : Nat)
  | release (i : Nat)
deriving DecidableEq

/-- The worker index an event belongs to. -/
def LEv.wid : LEv → Nat
  | .acquire i => i
  | .inc i => i
  | .release i => i

/-- State of the mutex program: the plain `int counter`, the owner of the
mutex `m` (if any), and the phase of each worker. -/
structure LState where
  counter : Nat
  lock : Option Nat
  workers : List Phase
deriving DecidableEq

/-- One step of the mutex program.  `acquire i` needs the mutex to be free
and worker `i` not yet started; `inc i` and `release i` need worker `i` to
hold the mutex. -/
def lstep (s : LState) : LEv → Option LState
  | .acquire i =>
    match s.lock, s.workers[i]? with
    | none, some (.notStarted r) =>
      some ⟨s.counter, some i, s.workers.set i (.inLoop r)⟩
    | _, _ => none
  | .inc i =>
    match s.lock, s.workers[i]? with
    | some j, some (.inLoop (r+1)) =>
      if j = i then some ⟨s.counter + 1, some i, s.workers.set i (.inLoop r)⟩
      else none
    | _, _ => none
  | .release i =>
    match s.lock, s.workers[i]? with
    | some j, some (.inLoop 0) =>
      if j = i then some ⟨s.counter, none, s.workers.set i .done⟩
      else none
    | _, _ => none

/-- Run a whole schedule of the mutex program. -/
def lrun (s : LState) : List LEv → Option LState
  | [] => some s
  | e :: tr => (lstep s e).bind fun s1 => lrun s1 tr

/-- Every worker of the mutex program has finished (joins succeed). -/
def lDone (s : LState) : Bool := s.workers.all (fun p => p == .done)

/-- Initial state for a list of per-worker iteration counts. -/
def initLW (w : List Nat) : LState := ⟨0, none, w.map Phase.notStarted⟩

/-- Initial state of the mutex `main`: `n` workers, `iters` iterations each. -/
def initL (n iters : Nat) : LState := initLW (List.replicate n iters)

theorem lstep_acquire_elim (s : LState) (i : Nat) (s2 : LState)
    (h : lstep s (.acquire i) = some s2) :
    s.lock = none ∧ ∃ r, s.workers[i]? = some (.notStarted r) ∧
      s2 = ⟨s.counter, some i, s.workers.set i (.inLoop r)⟩ := by
  simp only [lstep] at h
  split at h
  · next r hlock hget =>
    exact ⟨hlock, r, hget, ((Option.some.injEq _ _).mp h).symm⟩
  · exact absurd h (by simp)

theorem lstep_inc_elim (s : LState) (i : Nat) (s2 : LState)
    (h : lstep s (.inc i) = some s2) :
    s.lock = some i ∧ ∃ r, s.workers[i]? = some (.inLoop (r + 1)) ∧
      s2 = ⟨s.counter + 1, some i, s.workers.set i (.inLoop r)⟩ := by
  simp only [lstep] at h
  split at h
  · next j r hlock hget =>
    split at h
    · next hj =>
      subst hj
      exact ⟨hlock, r, hget, ((Option.some.injEq _ _).mp h).symm⟩
    · exact absurd h (by simp)
  · exact absurd h (by simp)

theorem lstep_release_elim (s : LState) (i : Nat) (s2 : LState)
    (h : lstep s (.release i) = some s2) :
    s.lock = some i ∧ s.workers[i]? = some (.inLoop 0) ∧
      s2 = ⟨s.counter, none, s.workers.set i .done⟩ := by
  simp only [lstep] at h
  split at h
  · next j hlock hget =>
    split at h
    · next hj =>
      subst hj
      exact ⟨hlock, hget, ((Option.some.injEq _ _).mp h).symm⟩
    · exact absurd h (by simp)
  · exact absurd h (by simp)

/-- Any successful step rewrites the worker list only at the acting index. -/
theorem lstep_set (s : LState) (e : LEv) (s2 : LState)
    (h : lstep s e = some s2) :
    ∃ q, s2.workers = s.workers.set e.wid q := by
  cases e with
  | acquire i =>
    obtain ⟨-, r, -, hs2⟩ := lstep_acquire_elim s i s2 h
    exact ⟨.inLoop r, by rw [hs2]; rfl⟩
  | inc i =>
    obtain ⟨-, r, -, hs2⟩ := lstep_inc_elim s i s2 h
    exact ⟨.inLoop r, by rw [hs2]; rfl⟩
  | release i =>
    obtain ⟨-, -, hs2⟩ := lstep_release_elim s i s2 h
    exact ⟨.done, by rw [hs2]; rfl⟩

/-- Iterations a worker still has to add to the counter. -/
def Phase.contrib : Phase → Nat
  | .notStarted r => r
  | .inLoop r => r
  | .done => 0

/-- How far a worker has progressed; steps never decrease it. -/
def Phase.rank : Phase → Nat
  | .notStarted _ => 0
  | .inLoop _ => 1
  | .done => 2

/-- The conserved quantity: counter plus all outstanding iterations. -/
def lTotal (s : LState) : Nat :=
  s.counter + (s.workers.map Phase.contrib).sum

theorem mapSum_set (l : List Phase) (i : Nat) (p q : Phase)
    (h : l[i]? = some p) :
    ((l.set i q).map Phase.contrib).sum + p.contrib =
      (l.map Phase.contrib).sum + q.contrib := by
  induction l generalizing i with
  | nil => simp at h
  | cons x xs ih =>
    cases i with
    | zero =>
      simp only [List.getElem?_cons_zero, Option.some.injEq] at h
      subst h
      simp only [List.set_cons_zero, List.map_cons, List.sum_cons]
      omega
    | succ k =>
      simp only [List.getElem?_cons_succ] at h
      have := ih k h
      simp only [List.set_cons_succ, List.map_cons, List.sum_cons]
      omega

/-- Each mutex-program step conserves `counter + Σ outstanding`. -/
theorem lstep_total (s : LState) (e : LEv) (s2 : LState)
    (h : lstep s e = some s2) : lTotal s2 = lTotal s := by
  cases e with
  | acquire i =>
    obtain ⟨-, r, hget, hs2⟩ := lstep_acquire_elim s i s2 h
    subst hs2
    have := mapSum_set s.workers i (.notStarted r) (.inLoop r) hget
    simp only [lTotal, Phase.contrib] at this ⊢
    omega
  | inc i =>
    obtain ⟨-, r, hget, hs2⟩ := lstep_inc_elim s i s2 h
    subst hs2
    have := mapSum_set s.workers i (.inLoop (r + 1)) (.inLoop r) hget
    simp only [lTotal, Phase.contrib] at this ⊢
    omega
  | release i =>
    obtain ⟨-, hget, hs2⟩ := lstep_release_elim s i s2 h
    subst hs2
    have := mapSum_set s.workers i (.inLoop 0) .done hget
    simp only [lTotal, Phase.contrib] at this ⊢
    omega

theorem lrun_total (tr : List LEv) (s s2 : LState)
    (h : lrun s tr = some s2) : lTotal s2 = lTotal s := by
  induction tr generalizing s with
  | nil => simp only [lrun, Option.some.injEq] at h; rw [h]
  | cons e tr ih =>
    simp only [lrun, Option.bind_eq_some] at h
    obtain ⟨s1, h1, h2⟩ := h
    rw [ih s1 h2, lstep_total s e s1 h1]

theorem contrib_map_notStarted (w : List Nat) :
    ((w.map Phase.notStarted).map Phase.contrib) = w := by
  induction w with
  | nil => rfl
  | cons x xs ih => simp [Phase.contrib, ih]

theorem all_done_contrib (l : List Phase)
    (h : l.all (fun p => p == .done) = true) :
    (l.map Phase.contrib).sum = 0 := by
  induction l with
  | nil => rfl
  | cons x xs ih =>
    simp only [List.all_cons, Bool.and_eq_true, beq_iff_eq] at h
    obtain ⟨hx, hxs⟩ := h
    subst hx
    simp [Phase.contrib, ih hxs]

/-- A complete run of the mutex system ends with `counter = Σ w`. -/
theorem lrun_final_sum (w : List Nat) (tr : List LEv) (s : LState)
    (h : lrun (initLW w) tr = some s) (hdone : lDone s = true) :
    s.counter = w.sum := by
  have htot := lrun_total tr (initLW w) s h
  have hz := all_done_contrib s.workers hdone
  simp only [lTotal, initLW, contrib_map_notStarted] at htot
  omega

/-! Mutual exclusion: while any worker is inside its loop it owns the mutex,
so only the owner can perform `inc` steps. -/

/-- Lock invariant: a worker in its loop is the lock owner. -/
def LInv (s : LState) : Prop :=
  ∀ i r, s.workers[i]? = some (.inLoop r) → s.lock = some i

theorem lstep_inv (s : LState) (e : LEv) (s2 : LState)
    (h : lstep s e = some s2) (hinv : LInv s) : LInv s2 := by
  cases e with
  | acquire i =>
    obtain ⟨hlock, r, hget, hs2⟩ := lstep_acquire_elim s i s2 h
    subst hs2
    intro j rj hj
    by_cases hij : i = j
    · subst hij; rfl
    · rw [getSet_ne s.workers i j (.inLoop r) hij] at hj
      exact absurd (hinv j rj hj) (by rw [hlock]; simp)
  | inc i =>
    obtain ⟨hlock, r, hget, hs2⟩ := lstep_inc_elim s i s2 h
    subst hs2
    intro j rj hj
    by_cases hij : i = j
    · subst hij; rfl
    · rw [getSet_ne s.workers i j (.inLoop r) hij] at hj
      have := hinv j rj hj
      rw [hlock] at this
      exact absurd (Option.some.injEq i j ▸ this) (by simpa using hij)
  | release i =>
    obtain ⟨hlock, hget, hs2⟩ := lstep_release_elim s i s2 h
    subst hs2
    intro j rj hj
    by_cases hij : i = j
    · subst hij
      rw [getSet_self s.workers i (.inLoop 0) .done hget] at hj
      exact absurd hj (by simp)
    · rw [getSet_ne s.workers i j .done hij] at hj
      have := hinv j rj hj
      rw [hlock] at this
      exact absurd (Option.some.injEq i j ▸ this) (by simpa using hij)

theorem lrun_inv (tr : List LEv) (s s2 : LState)
    (h : lrun s tr = some s2) (hinv : LInv s) : LInv s2 := by
  induction tr generalizing s with
  | nil => simp only [lrun, Option.some.injEq] at h; rw [← h]; exact hinv
  | cons e tr ih =>
    simp only [lrun, Option.bind_eq_some] at h
    obtain ⟨s1, h1, h2⟩ := h
    exact ih s1 h2 (lstep_inv s e s1 h1 hinv)

theorem initLW_inv (w : List Nat) : LInv (initLW w) := by
  intro i r hget
  simp only [initLW] at hget
  rw [List.getElem?_map] at hget
  cases hw : w[i]? with
  | none => rw [hw] at hget; simp at hget
  | some x => rw [hw] at hget; simp at hget

/-- One step never moves a worker backwards through
`notStarted → inLoop → done`. -/
theorem lstep_rank (s : LState) (e : LEv) (s2 : LState)
    (h : lstep s e = some s2) (j : Nat) (p : Phase)
    (hp : s.workers[j]? = some p) :
    ∃ p2, s2.workers[j]? = some p2 ∧ p.rank ≤ p2.rank := by
  by_cases hij : e.wid = j
  · cases e with
    | acquire i =>
      obtain ⟨-, r, hget, hs2⟩ := lstep_acquire_elim s i s2 h
      subst hs2
      simp only [LEv.wid] at hij
      subst hij
      rw [hp] at hget
      obtain rfl : p = .notStarted r := by simpa using hget
      exact ⟨.inLoop r, getSet_self s.workers i _ _ hp, by simp [Phase.rank]⟩
    | inc i =>
      obtain ⟨-, r, hget, hs2⟩ := lstep_inc_elim s i s2 h
      subst hs2
      simp only [LEv.wid] at hij
      subst hij
      rw [hp] at hget
      obtain rfl : p = .inLoop (r + 1) := by simpa using hget
      exact ⟨.inLoop r, getSet_self s.workers i _ _ hp, by simp [Phase.rank]⟩
    | release i =>
      obtain ⟨-, hget, hs2⟩ := lstep_release_elim s i s2 h
      subst hs2
      simp only [LEv.wid] at hij
      subst hij
      rw [hp] at hget
      obtain rfl : p = .inLoop 0 := by simpa using hget
      exact ⟨.done, getSet_self s.workers i _ _ hp, by simp [Phase.rank]⟩
  · obtain ⟨q, hq⟩ := lstep_set s e s2 h
    refine ⟨p, ?_, le_refl _⟩
    rw [hq, getSet_ne s.workers e.wid j q hij]
    exact hp

theorem lrun_rank (tr : List LEv) (s s2 : LState)
    (h : lrun s tr = some s2) (j : Nat) (p : Phase)
    (hp : s.workers[j]? = some p) :
    ∃ p2, s2.workers[j]? = some p2 ∧ p.rank ≤ p2.rank := by
  induction tr generalizing s p with
  | nil =>
    simp only [lrun, Option.some.injEq] at h
    exact ⟨p, h ▸ hp, le_refl _⟩
  | cons e tr ih =>
    simp only [lrun, Option.bind_eq_some] at h
    obtain ⟨s1, h1, h2⟩ := h
    obtain ⟨p1, hp1, hr1⟩ := lstep_rank s e s1 h1 j p hp
    obtain ⟨p2, hp2, hr2⟩ := ih s1 h2 p1 hp1
    exact ⟨p2, hp2, le_trans hr1 hr2⟩

theorem rank_eq_one (p : Phase) (h : p.rank = 1) : ∃ r, p = .inLoop r := by
  cases p with
  | notStarted r => simp [Phase.rank] at h
  | inLoop r => exact ⟨r, rfl⟩
  | done => simp [Phase.rank] at h

theorem lrun_append (s : LState) (t1 t2 : List LEv) :
    lrun s (t1 ++ t2) = (lrun s t1).bind fun s1 => lrun s1 t2 := by
  induction t1 generalizing s with
  | nil => simp [lrun]
  | cons e tr ih =>
    simp only [List.cons_append, lrun]
    cases lstep s e with
    | none => simp
    | some s1 => simp [ih s1]

/-! Trace shape: in any complete run of the mutex program, the events of
worker `i` are exactly one `acquire`, then its `r` increments, then one
`release`, in that order. -/

/-- The events of worker `i` in a schedule. -/
def evsOf (i : Nat) (tr : List LEv) : List LEv :=
  tr.filter (fun e => e.wid == i)

/-- The events a worker in phase `p` will still emit in a complete run. -/
def Phase.expect (i : Nat) : Phase → List LEv
  | .notStarted r => .acquire i :: (List.replicate r (.inc i) ++ [.release i])
  | .inLoop r => List.replicate r (.inc i) ++ [.release i]
  | .done => []

theorem lrun_evsOf (tr : List LEv) (s s2 : LState)
    (h : lrun s tr = some s2) (hdone : lDone s2 = true)
    (i : Nat) (p : Phase) (hp : s.workers[i]? = some p) :
    evsOf i tr = p.expect i := by
  induction tr generalizing s p with
  | nil =>
    simp only [lrun, Option.some.injEq] at h
    subst h
    unfold lDone at hdone
    rw [List.all_eq_true] at hdone
    have hmem : p ∈ s.workers := by
      rcases List.getElem?_eq_some_iff.mp hp with ⟨hlt, hget⟩
      exact hget ▸ List.getElem_mem hlt
    have : p = .done := by simpa using hdone p hmem
    subst this
    rfl
  | cons e tr ih =>
    simp only [lrun, Option.bind_eq_some] at h
    obtain ⟨s1, h1, h2⟩ := h
    by_cases hei : e.wid = i
    · cases e with
      | acquire k =>
        simp only [LEv.wid] at hei
        subst hei
        obtain ⟨-, r, hget, hs1⟩ := lstep_acquire_elim s k s1 h1
        rw [hp] at hget
        obtain rfl : p = .notStarted r := by simpa using hget
        have hget1 : s1.workers[k]? = some (.inLoop r) := by
          rw [hs1]; exact getSet_self s.workers k _ _ hp
        have := ih s1 h2 (.inLoop r) hget1
        simp only [evsOf, List.filter_cons, LEv.wid, beq_self_eq_true,
          if_true] at this ⊢
        rw [this]
        rfl
      | inc k =>
        simp only [LEv.wid] at hei
        subst hei
        obtain ⟨-, r, hget, hs1⟩ := lstep_inc_elim s k s1 h1
        rw [hp] at hget
        obtain rfl : p = .inLoop (r + 1) := by simpa using hget
        have hget1 : s1.workers[k]? = some (.inLoop r) := by
          rw [hs1]; exact getSet_self s.workers k _ _ hp
        have := ih s1 h2 (.inLoop r) hget1
        simp only [evsOf, List.filter_cons, LEv.wid, beq_self_eq_true,
          if_true] at this ⊢
        rw [this]
        simp [Phase.expect, List.replicate_succ]
      | release k =>
        simp only [LEv.wid] at hei
        subst hei
        obtain ⟨-, hget, hs1⟩ := lstep_release_elim s k s1 h1
        rw [hp] at hget
        obtain rfl : p = .inLoop 0 := by simpa using hget
        have hget1 : s1.workers[k]? = some .done := by
          rw [hs1]; exact getSet_self s.workers k _ _ hp
        have := ih s1 h2 .done hget1
        simp only [evsOf, List.filter_cons, LEv.wid, beq_self_eq_true,
          if_true] at this ⊢
        rw [this]
        rfl
    · obtain ⟨q, hq⟩ := lstep_set s e s1 h1
      have hget1 : s1.workers[i]? = some p := by
        rw [hq, getSet_ne s.workers e.wid i q hei]
        exact hp
      have := ih s1 h2 p hget1
      simp only [evsOf, List.filter_cons] at this ⊢
      rw [if_neg (by simpa using hei)]
      exact this

theorem lrun_cons_elim (s : LState) (e : LEv) (tr : List LEv) (s2 : LState)
    (h : lrun s (e :: tr) = some s2) :
    ∃ s1, lstep s e = some s1 ∧ lrun s1 tr = some s2 := by
  simp only [lrun, Option.bind_eq_some] at h
  exact h

theorem lrun_append_elim (s : LState) (t1 t2 : List LEv) (s2 : LState)
    (h : lrun s (t1 ++ t2) = some s2) :
    ∃ s1, lrun s t1 = some s1 ∧ lrun s1 t2 = some s2 := by
  rw [lrun_append, Option.bind_eq_some] at h
  exact h

/-- Between two increments of worker `i`, no other worker can increment:
the mutex never changes hands while `i` is inside its loop. -/
theorem lrun_no_interleave (s0 : LState) (hinv : LInv s0)
    (t1 t2 t3 t4 : List LEv) (i j : Nat) (s : LState)
    (h : lrun s0
      (t1 ++ .inc i :: (t2 ++ .inc j :: (t3 ++ .inc i :: t4))) = some s) :
    j = i := by
  obtain ⟨s1, ht1, h⟩ := lrun_append_elim s0 t1 _ s h
  obtain ⟨s2, hstep1, h⟩ := lrun_cons_elim s1 _ _ s h
  obtain ⟨s3, ht2, h⟩ := lrun_append_elim s2 t2 _ s h
  obtain ⟨s4, hstep2, h⟩ := lrun_cons_elim s3 _ _ s h
  obtain ⟨s5, ht3, h⟩ := lrun_append_elim s4 t3 _ s h
  obtain ⟨s6, hstep3, -⟩ := lrun_cons_elim s5 _ _ s h
  obtain ⟨-, r1, -, hs2⟩ := lstep_inc_elim s1 i s2 hstep1
  obtain ⟨hlock3, r2, hget3, -⟩ := lstep_inc_elim s3 j s4 hstep2
  obtain ⟨-, r3, hget5, -⟩ := lstep_inc_elim s5 i s6 hstep3
  have hget2 : s2.workers[i]? = some (.inLoop r1) := by
    rw [hs2]
    exact getSet_self s1.workers i _ _ (lstep_inc_elim s1 i s2 hstep1).2.choose_spec.1
  obtain ⟨p3, hp3, hr3⟩ := lrun_rank t2 s2 s3 ht2 i (.inLoop r1) hget2
  obtain ⟨p4, hp4, hr4⟩ := lstep_rank s3 (.inc j) s4 hstep2 i p3 hp3
  obtain ⟨p5, hp5, hr5⟩ := lrun_rank t3 s4 s5 ht3 i p4 hp4
  rw [hget5] at hp5
  obtain rfl : p5 = .inLoop (r3 + 1) := by simpa using hp5.symm
  have hrank3 : p3.rank = 1 := by
    simp only [Phase.rank] at hr3 hr4 hr5 ⊢
    omega
  obtain ⟨r, hr⟩ := rank_eq_one p3 hrank3
  subst hr
  have hinv3 : LInv s3 :=
    lrun_inv t2 s2 s3 ht2
      (lstep_inv s1 (.inc i) s2 hstep1 (lrun_inv t1 s0 s1 ht1 hinv))
  have hlocki : s3.lock = some i := hinv3 i r hp3
  rw [hlocki] at hlock3
  simpa using hlock3.symm

/-- The sequential schedule of the mutex program: worker `k` acquires, runs
its whole loop, releases; then worker `k+1`, and so on. -/
def lseqFrom : Nat → List Nat → List LEv
  | _, [] => []
  | k, r :: rest =>
    .acquire k :: (List.replicate r (.inc k) ++
      (.release k :: lseqFrom (k + 1) rest))

/-- Worker `i`, holding the mutex, runs its remaining `r` increments. -/
theorem lrun_incs (c : Nat) (l : List Phase) (i r : Nat)
    (h : l[i]? = some (.inLoop r)) :
    lrun ⟨c, some i, l⟩ (List.replicate r (.inc i)) =
      some ⟨c + r, some i, l.set i (.inLoop 0)⟩ := by
  induction r generalizing c l with
  | zero => simp [lrun, set_cancel l i (.inLoop 0) h]
  | succ m ih =>
    have hstep : lstep ⟨c, some i, l⟩ (.inc i) =
        some ⟨c + 1, some i, l.set i (.inLoop m)⟩ := by
      simp only [lstep, h]
      simp
    rw [List.replicate_succ]
    simp only [lrun, hstep, Option.some_bind]
    rw [ih (c + 1) (l.set i (.inLoop m))
      (getSet_self l i (.inLoop (m + 1)) (.inLoop m) h)]
    rw [set_set]
    have harith : c + 1 + m = c + (m + 1) := by omega
    rw [harith]

theorem lrun_lseqFrom (c : Nat) (ds : List Phase) (rest : List Nat) :
    lrun ⟨c, none, ds ++ rest.map Phase.notStarted⟩
        (lseqFrom ds.length rest) =
      some ⟨c + rest.sum, none, ds ++ List.replicate rest.length .done⟩ := by
  induction rest generalizing c ds with
  | nil => simp [lseqFrom, lrun]
  | cons r rest ih =>
    have hacq : lstep ⟨c, none, ds ++ (Phase.notStarted r) :: rest.map Phase.notStarted⟩
        (.acquire ds.length) =
        some ⟨c, some ds.length, ds ++ (Phase.inLoop r) :: rest.map Phase.notStarted⟩ := by
      simp only [lstep, get_append_len]
      rw [set_append_len]
    have hrel : lstep ⟨c + r, some ds.length, ds ++ (Phase.inLoop 0) :: rest.map Phase.notStarted⟩
        (.release ds.length) =
        some ⟨c + r, none, ds ++ Phase.done :: rest.map Phase.notStarted⟩ := by
      simp only [lstep, get_append_len]
      rw [set_append_len]
      simp
    simp only [lseqFrom, List.map_cons, lrun, hacq, Option.some_bind]
    rw [lrun_append, lrun_incs c (ds ++ (Phase.inLoop r) :: rest.map Phase.notStarted)
      ds.length r (get_append_len ds _ _), set_append_len]
    simp only [Option.some_bind, lrun, hrel]
    have h0 : ds ++ Phase.done :: rest.map Phase.notStarted =
        (ds ++ [Phase.done]) ++ rest.map Phase.notStarted := by simp
    have hlen : ds.length + 1 = (ds ++ [Phase.done]).length := by simp
    rw [h0, hlen, ih (c + r) (ds ++ [Phase.done])]
    simp only [List.sum_cons, List.length_cons, List.replicate_succ,
      Option.some.injEq, LState.mk.injEq]
    exact ⟨by omega, trivial, by simp⟩

/-- A complete sequential run of the mutex system from `initLW w`. -/
theorem lrun_lseq (w : List Nat) :
    lrun (initLW w) (lseqFrom 0 w) =
      some ⟨w.sum, none, List.replicate w.length .done⟩ := by
  have := lrun_lseqFrom 0 ([] : List Phase) w
  simpa [initLW] using this

theorem lDone_dones (c : Nat) (lk : Option Nat) (n : Nat) :
    lDone ⟨c, lk, List.replicate n .done⟩ = true := by
  unfold lDone
  rw [List.all_eq_true]
  intro p hp
  have := List.eq_of_mem_replicate hp
  simp [this]

/-! ### Program surface

Both `main.cpp` files hardcode the same configuration constants and print a
single line `Counter: <value>` after joining all workers, then return 0. -/

/-- Constant `int threadCount = 100;` — identical in both main programs. -/
def threadCount : Nat := 100

/-- Constant `int iterations = 1000000;` — identical in both main programs. -/
def iterations : Nat := 1000000

/-- Observable behaviour of the atomic `main` under a schedule: if every
worker completes (all joins return), the process prints its one line and
exits 0; no output exists before that. -/
def progRunA (tr : List Nat) : Option (String × Nat) :=
  match arun (initA threadCount iterations) tr with
  | some s =>
    if aDone s then some ("Counter: " ++ toString s.counter, 0) else none
  | none => none

/-- Observable behaviour of the mutex `main` under a schedule. -/
def progRunL (tr : List LEv) : Option (String × Nat) :=
  match lrun (initL threadCount iterations) tr with
  | some s =>
    if lDone s then some ("Counter: " ++ toString s.counter, 0) else none
  | none => none

/-- The probe `test_features.cpp` spawns 5 threads. -/
def featureThreads : Nat := 5

/-- Each feature-probe thread performs 1000 atomic increments. -/
def featureIters : Nat := 1000

/-- Counter state of the feature probe: `std::atomic<int> counter{0}` plus
its 5 workers of 1000 increments each. -/
def initFeature : AState := initA featureThreads featureIters

/-- What the feature probe prints about the counter after joining. -/
def progRunF (tr : List Nat) : Option String :=
  match arun initFeature tr with
  | some s =>
    if aDone s then some ("Final counter value: " ++ toString s.counter)
    else none
  | none => none

theorem progRunA_complete (tr : List Nat) (s : AState)
    (h : arun (initA threadCount iterations) tr = some s)
    (hdone : aDone s = true) :
    progRunA tr = some ("Counter: " ++ toString s.counter, 0) := by
  unfold progRunA
  rw [h]
  show (if aDone s = true then
    some ("Counter: " ++ toString s.counter, (0 : Nat)) else none) = _
  rw [if_pos hdone]

theorem progRunL_complete (tr : List LEv) (s : LState)
    (h : lrun (initL threadCount iterations) tr = some s)
    (hdone : lDone s = true) :
    progRunL tr = some ("Counter: " ++ toString s.counter, 0) := by
  unfold progRunL
  rw [h]
  show (if lDone s = true then
    some ("Counter: " ++ toString s.counter, (0 : Nat)) else none) = _
  rw [if_pos hdone]

theorem progRunF_complete (tr : List Nat) (s : AState)
    (h : arun initFeature tr = some s) (hdone : aDone s = true) :
    progRunF tr = some ("Final counter value: " ++ toString s.counter) := by
  unfold progRunF
  rw [h]
  show (if aDone s = true then
    some ("Final counter value: " ++ toString s.counter) else none) = _
  rw [if_pos hdone]

/-! ### The claims -/

/-- Claim C1: for every run configuration with `threadCount ≥ 1` and
`iterations ≥ 0`, after all workers complete, the final counter value is
exactly `threadCount * iterations` under both the Locking and the Atomic
discipline — no lost updates, whatever the interleaving. -/
theorem C1_final_count (n iters : Nat) (_hn : 1 ≤ n) :
    (∀ tr s, arun (initA n iters) tr = some s → aDone s = true →
      s.counter = n * iters) ∧
    (∀ tr s, lrun (initL n iters) tr = some s → lDone s = true →
      s.counter = n * iters) := by
  constructor
  · intro tr s h hdone
    rw [arun_final_sum (List.replicate n iters) tr s h hdone,
      sum_replicate_nat]
  · intro tr s h hdone
    rw [lrun_final_sum (List.replicate n iters) tr s h hdone,
      sum_replicate_nat]

theorem C1_final_count_witness :
    (1 ≤ 2) ∧
    (AState.mk 2 [0, 0]).counter = 2 * 1 ∧
    (LState.mk 2 none [.done, .done]).counter = 2 * 1 := by
  refine ⟨by decide, ?_, ?_⟩
  · exact (C1_final_count 2 1 (by decide)).1 [0, 1] ⟨2, [0, 0]⟩
      (by decide) (by decide)
  · exact (C1_final_count 2 1 (by decide)).2
      [.acquire 0, .inc 0, .release 0, .acquire 1, .inc 1, .release 1]
      ⟨2, none, [.done, .done]⟩ (by decide) (by decide)

/-- Claim C2: under the Atomic discipline every individual increment is one
indivisible scheduler step — a fetch-and-add that bumps the counter by
exactly one and consumes exactly one iteration of the acting worker, with
no lock anywhere in the state — and therefore every interleaving of the
workers at per-increment granularity that completes loses no increment:
the final counter is `n * iters`. -/
theorem C2_atomic_fetch_add (n iters : Nat) :
    (∀ s i s2, astep s i = some s2 →
      s2.counter = s.counter + 1 ∧
      ∃ r, s.workers[i]? = some (r + 1) ∧ s2.workers = s.workers.set i r) ∧
    (∀ tr s, arun (initA n iters) tr = some s → aDone s = true →
      s.counter = n * iters) := by
  constructor
  · intro s i s2 h
    obtain ⟨r, hget, hs2⟩ := astep_elim s i s2 h
    subst hs2
    exact ⟨rfl, r, hget, rfl⟩
  · intro tr s h hdone
    rw [arun_final_sum (List.replicate n iters) tr s h hdone,
      sum_replicate_nat]

theorem C2_atomic_fetch_add_witness :
    ((AState.mk 8 [3]).counter = (AState.mk 7 [4]).counter + 1 ∧
      ∃ r, (AState.mk 7 [4]).workers[0]? = some (r + 1) ∧
        (AState.mk 8 [3]).workers = (AState.mk 7 [4]).workers.set 0 r) ∧
    (AState.mk 2 [0, 0]).counter = 2 * 1 := by
  constructor
  · exact (C2_atomic_fetch_add 2 1).1 ⟨7, [4]⟩ 0 ⟨8, [3]⟩ (by decide)
  · exact (C2_atomic_fetch_add 2 1).2 [1, 0] ⟨2, [0, 0]⟩
      (by decide) (by decide)

/-- Claim C3: under the Locking discipline, in every complete run each
events of each worker are exactly one `acquire`, then its `iters` loop
increments, then one `release`, in that order — it takes the single mutex
exactly once, before its loop, holds it throughout, and releases it only
after the loop ends — and consequently loop iterations of two distinct workers never
interleave: an increment pattern `inc i … inc j … inc i` in any valid
schedule forces `j = i`. -/
theorem C3_lock_whole_loop (n iters : Nat) :
    (∀ tr s, lrun (initL n iters) tr = some s → lDone s = true →
      ∀ i, i < n → evsOf i tr =
        .acquire i :: (List.replicate iters (.inc i) ++ [.release i])) ∧
    (∀ t1 t2 t3 t4 i j s,
      lrun (initL n iters)
        (t1 ++ .inc i :: (t2 ++ .inc j :: (t3 ++ .inc i :: t4))) = some s →
      j = i) := by
  constructor
  · intro tr s h hdone i hi
    have hp : (initL n iters).workers[i]? = some (.notStarted iters) := by
      simp only [initL, initLW]
      rw [List.getElem?_map, get_replicate n i iters hi]
      rfl
    have := lrun_evsOf tr (initL n iters) s h hdone i (.notStarted iters) hp
    rw [this]
    rfl
  · intro t1 t2 t3 t4 i j s h
    exact lrun_no_interleave (initL n iters)
      (initLW_inv (List.replicate n iters)) t1 t2 t3 t4 i j s h

theorem C3_lock_whole_loop_witness :
    evsOf 0 [.acquire 0, .inc 0, .release 0] =
      .acquire 0 :: (List.replicate 1 (.inc 0) ++ [.release 0]) ∧
    (0 = 0) := by
  constructor
  · exact (C3_lock_whole_loop 1 1).1 [.acquire 0, .inc 0, .release 0]
      ⟨1, none, [.done]⟩ (by decide) (by decide) 0 (by decide)
  · exact (C3_lock_whole_loop 1 3).2 [.acquire 0] [] [] [] 0 0
      ⟨3, some 0, [.inLoop 0]⟩ (by decide)

/-- Claim C4: for a fixed configuration the final count is identical across
any two complete runs — the result is deterministic across repeated runs
even though timing is not — under both disciplines; in particular with
`threadCount = 100`, `iterations = 1000000` under Atomic, every complete
run returns `final_count = 100000000`. -/
theorem C4_deterministic (n iters : Nat) :
    (∀ tr1 tr2 s1 s2,
      arun (initA n iters) tr1 = some s1 → aDone s1 = true →
      arun (initA n iters) tr2 = some s2 → aDone s2 = true →
      s1.counter = s2.counter) ∧
    (∀ tr1 tr2 s1 s2,
      lrun (initL n iters) tr1 = some s1 → lDone s1 = true →
      lrun (initL n iters) tr2 = some s2 → lDone s2 = true →
      s1.counter = s2.counter) ∧
    (∀ tr s, arun (initA 100 1000000) tr = some s → aDone s = true →
      s.counter = 100000000) := by
  refine ⟨?_, ?_, ?_⟩
  · intro tr1 tr2 s1 s2 h1 hd1 h2 hd2
    rw [arun_final_sum (List.replicate n iters) tr1 s1 h1 hd1,
      arun_final_sum (List.replicate n iters) tr2 s2 h2 hd2]
  · intro tr1 tr2 s1 s2 h1 hd1 h2 hd2
    rw [lrun_final_sum (List.replicate n iters) tr1 s1 h1 hd1,
      lrun_final_sum (List.replicate n iters) tr2 s2 h2 hd2]
  · intro tr s h hdone
    rw [arun_final_sum (List.replicate 100 1000000) tr s h hdone,
      sum_replicate_nat]

theorem C4_deterministic_witness :
    (AState.mk 2 [0, 0]).counter = (AState.mk 2 [0, 0]).counter ∧
    (LState.mk 2 none [.done, .done]).counter =
      (LState.mk 2 none [.done, .done]).counter ∧
    (AState.mk ((List.replicate 100 1000000).sum)
      (List.replicate (List.replicate 100 1000000).length 0)).counter =
      100000000 := by
  refine ⟨?_, ?_, ?_⟩
  · exact (C4_deterministic 2 1).1 [0, 1] [1, 0] ⟨2, [0, 0]⟩ ⟨2, [0, 0]⟩
      (by decide) (by decide) (by decide) (by decide)
  · exact (C4_deterministic 2 1).2.1
      [.acquire 0, .inc 0, .release 0, .acquire 1, .inc 1, .release 1]
      [.acquire 1, .inc 1, .release 1, .acquire 0, .inc 0, .release 0]
      ⟨2, none, [.done, .done]⟩ ⟨2, none, [.done, .done]⟩
      (by decide) (by decide) (by decide) (by decide)
  · exact (C4_deterministic 100 1000000).2.2
      (aseqFrom 0 (List.replicate 100 1000000)) _
      (arun_aseq (List.replicate 100 1000000)) (aDone_zeros _ _)

/-- Claim C5: for every `threadCount ≥ 1`, a configuration with
`iterations = 0` makes every complete run return `final_count = 0` under
either discipline (the loop body of each worker runs zero times). -/
theorem C5_zero_iterations (n : Nat) (_hn : 1 ≤ n) :
    (∀ tr s, arun (initA n 0) tr = some s → aDone s = true →
      s.counter = 0) ∧
    (∀ tr s, lrun (initL n 0) tr = some s → lDone s = true →
      s.counter = 0) := by
  constructor
  · intro tr s h hdone
    rw [arun_final_sum (List.replicate n 0) tr s h hdone, sum_replicate_nat]
    omega
  · intro tr s h hdone
    rw [lrun_final_sum (List.replicate n 0) tr s h hdone, sum_replicate_nat]
    omega

theorem C5_zero_iterations_witness :
    (1 ≤ 1) ∧
    (AState.mk 0 [0]).counter = 0 ∧
    (LState.mk 0 none [.done]).counter = 0 := by
  refine ⟨by decide, ?_, ?_⟩
  · exact (C5_zero_iterations 1 (by decide)).1 [] ⟨0, [0]⟩
      (by decide) (by decide)
  · exact (C5_zero_iterations 1 (by decide)).2 [.acquire 0, .release 0]
      ⟨0, none, [.done]⟩ (by decide) (by decide)

/-- Claim C6: the final count is a commutative aggregate, independent of the
order in which workers are arranged, spawned, or joined: permuting the
per-worker loads leaves the result of every complete run unchanged, under
both disciplines. -/
theorem C6_perm_invariant (w w2 : List Nat) (hperm : w.Perm w2) :
    (∀ tr tr2 s s2,
      arun (initW w) tr = some s → aDone s = true →
      arun (initW w2) tr2 = some s2 → aDone s2 = true →
      s.counter = s2.counter) ∧
    (∀ tr tr2 s s2,
      lrun (initLW w) tr = some s → lDone s = true →
      lrun (initLW w2) tr2 = some s2 → lDone s2 = true →
      s.counter = s2.counter) := by
  constructor
  · intro tr tr2 s s2 h hd h2 hd2
    rw [arun_final_sum w tr s h hd, arun_final_sum w2 tr2 s2 h2 hd2]
    exact hperm.sum_eq
  · intro tr tr2 s s2 h hd h2 hd2
    rw [lrun_final_sum w tr s h hd, lrun_final_sum w2 tr2 s2 h2 hd2]
    exact hperm.sum_eq

theorem C6_perm_invariant_witness :
    (AState.mk 3 [0, 0]).counter = (AState.mk 3 [0, 0]).counter ∧
    (LState.mk 3 none [.done, .done]).counter =
      (LState.mk 3 none [.done, .done]).counter := by
  constructor
  · exact (C6_perm_invariant [1, 2] [2, 1] (by decide)).1
      [0, 1, 1] [0, 0, 1] ⟨3, [0, 0]⟩ ⟨3, [0, 0]⟩
      (by decide) (by decide) (by decide) (by decide)
  · exact (C6_perm_invariant [1, 2] [2, 1] (by decide)).2
      [.acquire 0, .inc 0, .release 0, .acquire 1, .inc 1, .inc 1, .release 1]
      [.acquire 0, .inc 0, .inc 0, .release 0, .acquire 1, .inc 1, .release 1]
      ⟨3, none, [.done, .done]⟩ ⟨3, none, [.done, .done]⟩
      (by decide) (by decide) (by decide) (by decide)

/-- Claim C7: the entry point takes no arguments, uses the fixed internal
constants `threadCount = 100` and `iterations = 1000000`, and — for either
program — whenever it terminates it emits exactly the one line
`Counter: <final_value>` on standard output and exit code 0, the final
value being `100 * 1000000`. -/
theorem C7_cli_surface :
    threadCount = 100 ∧ iterations = 1000000 ∧
    (∀ tr out, progRunA tr = some out →
      out = ("Counter: " ++ toString (100 * 1000000), 0)) ∧
    (∀ tr out, progRunL tr = some out →
      out = ("Counter: " ++ toString (100 * 1000000), 0)) := by
  refine ⟨rfl, rfl, ?_, ?_⟩
  · intro tr out h
    unfold progRunA at h
    split at h
    · next s harun =>
      split at h
      · next hdone =>
        have hcount : s.counter = 100 * 1000000 := by
          have := arun_final_sum (List.replicate 100 1000000) tr s harun hdone
          rw [this, sum_replicate_nat]
        obtain rfl : ("Counter: " ++ toString s.counter, (0 : Nat)) = out := by
          simpa using h
        rw [hcount]
      · exact absurd h (by simp)
    · exact absurd h (by simp)
  · intro tr out h
    unfold progRunL at h
    split at h
    · next s hrun =>
      split at h
      · next hdone =>
        have hcount : s.counter = 100 * 1000000 := by
          have := lrun_final_sum (List.replicate 100 1000000) tr s hrun hdone
          rw [this, sum_replicate_nat]
        obtain rfl : ("Counter: " ++ toString s.counter, (0 : Nat)) = out := by
          simpa using h
        rw [hcount]
      · exact absurd h (by simp)
    · exact absurd h (by simp)

theorem C7_cli_surface_witness :
    ("Counter: " ++ toString ((List.replicate 100 1000000).sum), (0 : Nat)) =
      ("Counter: " ++ toString (100 * 1000000), 0) ∧
    ("Counter: " ++ toString ((List.replicate 100 1000000).sum), (0 : Nat)) =
      ("Counter: " ++ toString (100 * 1000000), 0) := by
  constructor
  · exact C7_cli_surface.2.2.1 (aseqFrom 0 (List.replicate 100 1000000)) _
      (progRunA_complete (aseqFrom 0 (List.replicate 100 1000000))
        ⟨(List.replicate 100 1000000).sum,
          List.replicate (List.replicate 100 1000000).length 0⟩
        (arun_aseq (List.replicate 100 1000000)) (aDone_zeros _ _))
  · exact C7_cli_surface.2.2.2 (lseqFrom 0 (List.replicate 100 1000000)) _
      (progRunL_complete (lseqFrom 0 (List.replicate 100 1000000))
        ⟨(List.replicate 100 1000000).sum, none,
          List.replicate (List.replicate 100 1000000).length .done⟩
        (lrun_lseq (List.replicate 100 1000000)) (lDone_dones _ _ _))

/-- Claim C8: during the run the only shared state a worker step mutates is
the counter (plus the mutex ownership in the Locking discipline): every
slot of every other worker is untouched and the counter changes by at most one;
and the single output line exists only for schedules after which every
worker has completed and been joined — no I/O happens mid-run. -/
theorem C8_frame :
    (∀ s i s2, astep s i = some s2 →
      (∀ j, j ≠ i → s2.workers[j]? = s.workers[j]?) ∧
      s2.counter = s.counter + 1) ∧
    (∀ s e s2, lstep s e = some s2 →
      (∀ j, j ≠ e.wid → s2.workers[j]? = s.workers[j]?) ∧
      (s2.counter = s.counter ∨ s2.counter = s.counter + 1)) ∧
    (∀ tr out, progRunA tr = some out →
      ∃ s, arun (initA threadCount iterations) tr = some s ∧
        aDone s = true) ∧
    (∀ tr out, progRunL tr = some out →
      ∃ s, lrun (initL threadCount iterations) tr = some s ∧
        lDone s = true) := by
  refine ⟨?_, ?_, ?_, ?_⟩
  · intro s i s2 h
    obtain ⟨r, hget, hs2⟩ := astep_elim s i s2 h
    subst hs2
    exact ⟨fun j hj => getSet_ne s.workers i j r (Ne.symm hj), rfl⟩
  · intro s e s2 h
    obtain ⟨q, hq⟩ := lstep_set s e s2 h
    refine ⟨fun j hj => ?_, ?_⟩
    · rw [hq]
      exact getSet_ne s.workers e.wid j q (Ne.symm hj)
    · cases e with
      | acquire i =>
        obtain ⟨-, r, -, hs2⟩ := lstep_acquire_elim s i s2 h
        subst hs2
        exact Or.inl rfl
      | inc i =>
        obtain ⟨-, r, -, hs2⟩ := lstep_inc_elim s i s2 h
        subst hs2
        exact Or.inr rfl
      | release i =>
        obtain ⟨-, -, hs2⟩ := lstep_release_elim s i s2 h
        subst hs2
        exact Or.inl rfl
  · intro tr out h
    unfold progRunA at h
    split at h
    · next s harun =>
      split at h
      · next hdone => exact ⟨s, harun, hdone⟩
      · exact absurd h (by simp)
    · exact absurd h (by simp)
  · intro tr out h
    unfold progRunL at h
    split at h
    · next s hrun =>
      split at h
      · next hdone => exact ⟨s, hrun, hdone⟩
      · exact absurd h (by simp)
    · exact absurd h (by simp)

theorem C8_frame_witness :
    ((AState.mk 1 [0, 5]).workers[1]? = (AState.mk 0 [1, 5]).workers[1]? ∧
      (AState.mk 1 [0, 5]).counter = (AState.mk 0 [1, 5]).counter + 1) ∧
    ((LState.mk 0 (some 0) [.inLoop 1, .notStarted 2]).workers[1]? =
      (LState.mk 0 none [.notStarted 1, .notStarted 2]).workers[1]?) ∧
    (∃ s, arun (initA threadCount iterations)
        (aseqFrom 0 (List.replicate 100 1000000)) = some s ∧
      aDone s = true) ∧
    (∃ s, lrun (initL threadCount iterations)
        (lseqFrom 0 (List.replicate 100 1000000)) = some s ∧
      lDone s = true) := by
  refine ⟨?_, ?_, ?_, ?_⟩
  · have := C8_frame.1 ⟨0, [1, 5]⟩ 0 ⟨1, [0, 5]⟩ (by decide)
    exact ⟨this.1 1 (by decide), this.2⟩
  · exact (C8_frame.2.1 ⟨0, none, [.notStarted 1, .notStarted 2]⟩
      (.acquire 0) ⟨0, some 0, [.inLoop 1, .notStarted 2]⟩ (by decide)).1
      1 (by decide)
  · exact C8_frame.2.2.1 (aseqFrom 0 (List.replicate 100 1000000)) _
      (progRunA_complete (aseqFrom 0 (List.replicate 100 1000000))
        ⟨(List.replicate 100 1000000).sum,
          List.replicate (List.replicate 100 1000000).length 0⟩
        (arun_aseq (List.replicate 100 1000000)) (aDone_zeros _ _))
  · exact C8_frame.2.2.2 (lseqFrom 0 (List.replicate 100 1000000)) _
      (progRunL_complete (lseqFrom 0 (List.replicate 100 1000000))
        ⟨(List.replicate 100 1000000).sum, none,
          List.replicate (List.replicate 100 1000000).length .done⟩
        (lrun_lseq (List.replicate 100 1000000)) (lDone_dones _ _ _))

/-- Claim C9: with the hardcoded reference configuration the final total
`threadCount * iterations = 100 * 1000000 = 100000000` is below `2 ^ 31`,
so it fits the 32-bit signed `int` counter; and along any schedule of
either program every intermediate counter value is bounded by that total,
so the arithmetic-overflow fatal condition cannot occur on the reference
run. -/
theorem C9_no_overflow :
    threadCount * iterations = 100000000 ∧ 100000000 < 2 ^ 31 ∧
    (∀ tr s, arun (initA threadCount iterations) tr = some s →
      s.counter ≤ threadCount * iterations) ∧
    (∀ tr s, lrun (initL threadCount iterations) tr = some s →
      s.counter ≤ threadCount * iterations) := by
  refine ⟨rfl, by decide, ?_, ?_⟩
  · intro tr s h
    have htot := arun_total tr (initA threadCount iterations) s h
    have hsum : (List.replicate threadCount iterations).sum =
        threadCount * iterations := sum_replicate_nat _ _
    simp only [initA, initW] at htot
    omega
  · intro tr s h
    have htot := lrun_total tr (initL threadCount iterations) s h
    have hsum : (List.replicate threadCount iterations).sum =
        threadCount * iterations := sum_replicate_nat _ _
    simp only [lTotal, initL, initLW, contrib_map_notStarted] at htot
    omega

theorem C9_no_overflow_witness :
    (initA threadCount iterations).counter ≤ threadCount * iterations ∧
    (initL threadCount iterations).counter ≤ threadCount * iterations :=
  ⟨C9_no_overflow.2.2.1 [] (initA threadCount iterations) rfl,
    C9_no_overflow.2.2.2 [] (initL threadCount iterations) rfl⟩

/-- Claim C10: the feature probe spawns exactly 5 threads, each performing
exactly 1000 atomic increments of a counter initialized to 0; after all
threads are joined, every complete run ends with — and prints — final
counter value exactly 5000. -/
theorem C10_feature_probe :
    featureThreads = 5 ∧ featureIters = 1000 ∧ initFeature.counter = 0 ∧
    initFeature.workers = List.replicate 5 1000 ∧
    (∀ tr s, arun initFeature tr = some s → aDone s = true →
      s.counter = 5000) ∧
    (∀ tr out, progRunF tr = some out →
      out = "Final counter value: " ++ toString 5000) := by
  refine ⟨rfl, rfl, rfl, rfl, ?_, ?_⟩
  · intro tr s h hdone
    rw [arun_final_sum (List.replicate 5 1000) tr s h hdone,
      sum_replicate_nat]
  · intro tr out h
    unfold progRunF at h
    split at h
    · next s harun =>
      split at h
      · next hdone =>
        have hcount : s.counter = 5000 := by
          rw [arun_final_sum (List.replicate 5 1000) tr s harun hdone,
            sum_replicate_nat]
        obtain rfl : ("Final counter value: " ++ toString s.counter) = out := by
          simpa using h
        rw [hcount]
      · exact absurd h (by simp)
    · exact absurd h (by simp)

theorem C10_feature_probe_witness :
    (AState.mk ((List.replicate 5 1000).sum)
      (List.replicate (List.replicate 5 1000).length 0)).counter = 5000 ∧
    ("Final counter value: " ++ toString ((List.replicate 5 1000).sum)) =
      "Final counter value: " ++ toString 5000 := by
  constructor
  · exact C10_feature_probe.2.2.2.2.1 (aseqFrom 0 (List.replicate 5 1000))
      ⟨(List.replicate 5 1000).sum,
        List.replicate (List.replicate 5 1000).length 0⟩
      (arun_aseq (List.replicate 5 1000)) (aDone_zeros _ _)
  · exact C10_feature_probe.2.2.2.2.2 (aseqFrom 0 (List.replicate 5 1000)) _
      (progRunF_complete (aseqFrom 0 (List.replicate 5 1000))
        ⟨(List.replicate 5 1000).sum,
          List.replicate (List.replicate 5 1000).length 0⟩
        (arun_aseq (List.replicate 5 1000)) (aDone_zeros _ _))

end Scripts
